import Mathlib

/-
Verification development for the INI parse/edit/serialize core of
CKPE_Config.py (the CKPE Configuration GUI).

Lines are modelled as lists of characters; a raw document is a list of
lines (each line normally keeps its trailing newline character, exactly
as Python's readlines produces them).  The parser and writer below are
direct shallow embeddings of parse_comments, parse_ini_with_comments and
ConfigEditor.save_ini from the source file.
-/

/-- Whitespace characters recognised by Python's str.strip / str.lstrip
(the CPython Unicode whitespace set). -/
def isPyWs (c : Char) : Bool :=
  let n := c.toNat
  (0x09 ≤ n && n ≤ 0x0d) || (0x1c ≤ n && n ≤ 0x20) || n == 0x85 || n == 0xa0 ||
    n == 0x1680 || (0x2000 ≤ n && n ≤ 0x200a) || n == 0x2028 || n == 0x2029 ||
    n == 0x202f || n == 0x205f || n == 0x3000

/-- Remove the trailing run of whitespace characters (Python str.rstrip). -/
def rstrip : List Char → List Char
  | [] => []
  | c :: cs => if rstrip cs = [] ∧ isPyWs c = true then [] else c :: rstrip cs

/-- Python str.strip: drop leading and trailing whitespace. -/
def pyStrip (l : List Char) : List Char := rstrip (l.dropWhile isPyWs)

/-- The raw line at a given 0-based index (lines are only ever accessed at
valid indices by the parser; the default is never reached there). -/
def lineAt (lines : List (List Char)) (n : Nat) : List Char := lines.getD n []

/-- The stripped content of the line at a given index, used by the parser
for classification. -/
def stripAt (lines : List (List Char)) (n : Nat) : List Char := pyStrip (lineAt lines n)

/-- One key/value pair of the model (class ConfigEntry of the source). -/
structure ConfigEntry where
  name : List Char
  value : List Char
  tooltip : List Char
  line_number : Nat
  inline_comment : List Char
deriving DecidableEq

/-- A named group of entries (class ConfigSection of the source). -/
structure ConfigSection where
  name : List Char
  tooltip : List Char
  line_number : Nat
  entries : List ConfigEntry
deriving DecidableEq

/-- Backward scan of parse_comments: starting just below the given index,
walk upward over blank and comment lines, collecting the comment lines
(stripped of the leading marker and of surrounding whitespace) in
top-to-bottom order.  The scan stops at the first non-blank,
non-comment line. -/
def parse_comments_list (lines : List (List Char)) : Nat → List (List Char)
  | 0 => []
  | idx + 1 =>
    if (stripAt lines idx).head? = some ';' then
      parse_comments_list lines idx ++ [pyStrip ((stripAt lines idx).drop 1)]
    else if stripAt lines idx = [] then parse_comments_list lines idx
    else []

/-- parse_comments of the source: the collected leading comment block,
newline-joined. -/
def parse_comments (lines : List (List Char)) (i : Nat) : List Char :=
  List.intercalate ['\n'] (parse_comments_list lines i)

/-- Python s.split(t, 1) when t occurs in s: the part before the first
occurrence of t and the part after it. -/
def splitAtFirst (t : Char) (s : List Char) : List Char × List Char :=
  (s.takeWhile (fun c => !(c == t)), (s.dropWhile (fun c => !(c == t))).drop 1)

/-- Construction of one entry from the stripped text of an entry line
(the body of the `elif` branch of parse_ini_with_comments). -/
def mkEntry (lines : List (List Char)) (s : List Char) (i : Nat) : ConfigEntry :=
  if ';' ∈ pyStrip (splitAtFirst '=' s).2 then
    ⟨pyStrip (splitAtFirst '=' s).1,
      pyStrip (splitAtFirst ';' (pyStrip (splitAtFirst '=' s).2)).1,
      if parse_comments lines i = []
        then pyStrip (splitAtFirst ';' (pyStrip (splitAtFirst '=' s).2)).2
        else parse_comments lines i ++
          '\n' :: pyStrip (splitAtFirst ';' (pyStrip (splitAtFirst '=' s).2)).2,
      i,
      pyStrip (splitAtFirst ';' (pyStrip (splitAtFirst '=' s).2)).2⟩
  else
    ⟨pyStrip (splitAtFirst '=' s).1, pyStrip (splitAtFirst '=' s).2,
      parse_comments lines i, i, []⟩

/-- A line the main loop skips: blank after stripping, or a full comment
line. -/
def isSkip (s : List Char) : Prop := s = [] ∨ s.head? = some ';'

instance (s : List Char) : Decidable (isSkip s) := by
  unfold isSkip; infer_instance

/-- A section header: the stripped line starts with an opening bracket and
ends with a closing bracket. -/
def isHeader (s : List Char) : Prop := s.head? = some '[' ∧ s.getLast? = some ']'

instance (s : List Char) : Decidable (isHeader s) := by
  unfold isHeader; infer_instance

/-- The section name of a header line: the text between the brackets. -/
def headerName (s : List Char) : List Char := (s.drop 1).dropLast

/-- The loop state of parse_ini_with_comments: the sections already closed
and the currently open section (entries are appended to the open one). -/
structure ParseState where
  done : List ConfigSection
  cur : Option ConfigSection
deriving DecidableEq

/-- One step of the main loop of parse_ini_with_comments, processing the
line with index i. -/
def processLine (lines : List (List Char)) (st : ParseState) (i : Nat) : ParseState :=
  if isSkip (stripAt lines i) then st
  else if isHeader (stripAt lines i) then
    ⟨st.done ++ st.cur.toList,
      some ⟨headerName (stripAt lines i), parse_comments lines i, i, []⟩⟩
  else if '=' ∈ stripAt lines i then
    match st.cur with
    | none => st
    | some c => ⟨st.done, some ⟨c.name, c.tooltip, c.line_number,
        c.entries ++ [mkEntry lines (stripAt lines i) i]⟩⟩
  else st

/-- The list of sections represented by a loop state (the Python sections
list: closed sections followed by the still-open one). -/
def snapshot (st : ParseState) : List ConfigSection := st.done ++ st.cur.toList

/-- The loop state after the first n lines have been processed. -/
def stateUpTo (lines : List (List Char)) (n : Nat) : ParseState :=
  (List.range n).foldl (processLine lines) ⟨[], none⟩

/-- parse_ini_with_comments of the source: the full forward scan.  (The
source also returns the raw lines unchanged; here the caller keeps them.) -/
def parse_ini_with_comments (lines : List (List Char)) : List ConfigSection :=
  snapshot (stateUpTo lines lines.length)

/-- Failure of the writer.  In the Python source an out-of-range
entry.line_number makes the list access new_lines[entry.line_number]
raise an uncaught IndexError, aborting save_ini before any output is
written; the design documentation calls this condition a document
mismatch. -/
inductive SaveError where
  | documentMismatch
deriving DecidableEq

/-- The replacement text built by save_ini for one entry, before
re-indentation: name=value, with the fixed tab layout when the entry had
an inline comment. -/
def entryText (e : ConfigEntry) (v : List Char) : List Char :=
  if e.inline_comment = [] then e.name ++ '=' :: v
  else e.name ++ '=' :: v ++ '\t' :: '\t' :: '\t' :: ';' :: ' ' :: e.inline_comment

/-- The full rewritten line for one entry: as many space characters as the
old line had leading whitespace characters, the replacement text, and a
newline. -/
def rewriteLine (old : List Char) (e : ConfigEntry) (v : List Char) : List Char :=
  List.replicate (old.takeWhile isPyWs).length ' ' ++ entryText e v ++ ['\n']

/-- The per-entry update of save_ini: read the current line at the entry's
recorded index (an out-of-range index fails), and replace it with the
rewritten line. -/
def writeEntry (ls : List (List Char)) (e : ConfigEntry) (v : List Char) :
    Except SaveError (List (List Char)) :=
  if e.line_number < ls.length then
    .ok (ls.set e.line_number (rewriteLine (lineAt ls e.line_number) e v))
  else .error .documentMismatch

/-- One fold step of the writer over a (section name, entry) pair. -/
def saveStep (vals : List Char → List Char → List Char)
    (acc : Except SaveError (List (List Char))) (p : List Char × ConfigEntry) :
    Except SaveError (List (List Char)) :=
  match acc with
  | .error err => .error err
  | .ok ls => writeEntry ls p.2 (vals p.1 p.2.name)

/-- The writer core of ConfigEditor.save_ini: iterate over every section
and every entry, rewriting each entry's line with the value the caller
currently holds for it (in the GUI, the widget state, keyed by section
name and entry name). -/
def save_ini (lines : List (List Char)) (sections : List ConfigSection)
    (vals : List Char → List Char → List Char) : Except SaveError (List (List Char)) :=
  sections.foldl
    (fun acc sec => sec.entries.foldl (fun a e => saveStep vals a (sec.name, e)) acc)
    (.ok lines)

/-- All (section name, entry) pairs of a document, in traversal order. -/
def allPairs (sections : List ConfigSection) : List (List Char × ConfigEntry) :=
  (sections.map (fun sec => sec.entries.map (fun e => (sec.name, e)))).flatten

/-- The value the GUI holds for a (section name, entry name) key when the
user has edited nothing: the parsed value of the last entry with that
key (the widget dictionary is filled in traversal order, later entries
overwriting earlier ones). -/
def valsOf (sections : List ConfigSection) (s k : List Char) : List Char :=
  match (allPairs sections).reverse.find? (fun p => p.1 == s && p.2.name == k) with
  | some p => p.2.value
  | none => []

/-- All recorded source line numbers of a document, in model traversal
order: each section's header line followed by its entries' lines. -/
def tline (secs : List ConfigSection) : List Nat :=
  (secs.map (fun sec => sec.line_number :: sec.entries.map (fun e => e.line_number))).flatten

/-- Decidable equality of writer results, used to evaluate the writer on
concrete documents. -/
instance instDecEqExcept {ε α : Type} [DecidableEq ε] [DecidableEq α] :
    DecidableEq (Except ε α) := fun x y =>
  match x, y with
  | .error a, .error b =>
    if h : a = b then isTrue (congrArg Except.error h)
    else isFalse (fun he => h (Except.error.inj he))
  | .error _, .ok _ => isFalse (fun he => Except.noConfusion he)
  | .ok _, .error _ => isFalse (fun he => Except.noConfusion he)
  | .ok a, .ok b =>
    if h : a = b then isTrue (congrArg Except.ok h)
    else isFalse (fun he => h (Except.ok.inj he))

/- ### Well-formedness predicates proved of the parser output -/

/-- What the parser guarantees about every entry it has built after the
first n lines: the recorded line index is one of the processed lines,
that line's stripped text was not skipped, is not a header, contains an
equals sign, and the entry is exactly the one mkEntry builds from it. -/
def EntryWF (lines : List (List Char)) (n : Nat) (e : ConfigEntry) : Prop :=
  e.line_number < n ∧
  ¬ isSkip (stripAt lines e.line_number) ∧
  ¬ isHeader (stripAt lines e.line_number) ∧
  '=' ∈ stripAt lines e.line_number ∧
  e = mkEntry lines (stripAt lines e.line_number) e.line_number

/-- What the parser guarantees about every section it has built after the
first n lines: its line is a processed header line, and its fields are
derived from that line; all its entries are well formed. -/
def SecWF (lines : List (List Char)) (n : Nat) (sec : ConfigSection) : Prop :=
  sec.line_number < n ∧
  isHeader (stripAt lines sec.line_number) ∧
  sec.name = headerName (stripAt lines sec.line_number) ∧
  sec.tooltip = parse_comments lines sec.line_number ∧
  ∀ e ∈ sec.entries, EntryWF lines n e

/-- The full loop invariant of the parser after the first n lines:
well-formed sections, strictly increasing recorded line numbers bounded
by n, and a section for every header line among the first n lines. -/
def ParseInv (lines : List (List Char)) (n : Nat) (st : ParseState) : Prop :=
  (∀ sec ∈ snapshot st, SecWF lines n sec) ∧
  (tline (snapshot st)).Pairwise (· < ·) ∧
  (∀ x ∈ tline (snapshot st), x < n) ∧
  (∀ j, j < n → isHeader (stripAt lines j) → ∃ sec ∈ snapshot st, sec.line_number = j)

/- ### Concrete documents used as witnesses and counterexamples -/

def lnSecA : List Char := "[A]\n".toList

def lnFooSpaced : List Char := "Foo = 1\n".toList

def lnFoo1 : List Char := "Foo=1\n".toList

def lnBar2 : List Char := "Bar=2\n".toList

def lnBar3 : List Char := "Bar=3\n".toList

def lnTabFoo : List Char := "\tFoo=1\n".toList

def lnSpFoo2 : List Char := " Foo=2\n".toList

def lnTopCmt : List Char := "; top comment\n".toList

def lnFooKeep : List Char := "Foo=1\t\t\t; keep me\n".toList

def lnBlank : List Char := "\n".toList

def lnCmtPad : List Char := ";   hello  \n".toList

def lnBadHdrEq : List Char := "[Sec=tion\n".toList

def lnBadHdr : List Char := "[Section\n".toList

def lnEqCmt : List Char := "Foo = a=b ;  c ; d\n".toList

def lnCmtC : List Char := "; c\n".toList

def lnNote : List Char := "; note\n".toList

def lnHdrAB : List Char := "[a=b]\n".toList

def lnX1 : List Char := "x=1\n".toList

def strA : List Char := "A".toList

def strFoo : List Char := "Foo".toList

def strBar : List Char := "Bar".toList

def str1 : List Char := "1".toList

def str2 : List Char := "2".toList

def str3 : List Char := "3".toList

def strHello : List Char := "hello".toList

def strHelloPad : List Char := "  hello  ".toList

/-- Round-trip counterexample input: an entry line with spaces around the
equals sign. -/
def docRoundTrip : List (List Char) := [lnSecA, lnFooSpaced]

/-- A document whose entry lines are already in the writer's canonical
layout. -/
def docCanon : List (List Char) := [lnTopCmt, lnSecA, lnFooKeep, lnBlank, lnBar2]

/-- Locality counterexample input: one canonical and one non-canonical
entry line. -/
def docLocal : List (List Char) := [lnSecA, lnFooSpaced, lnBar2]

/-- Locality witness input: all entry lines canonical. -/
def docLocalCanon : List (List Char) := [lnSecA, lnFoo1, lnBar2]

/-- Indentation counterexample input: a tab-indented entry line. -/
def docTab : List (List Char) := [lnSecA, lnTabFoo]

/-- Comment-stripping input: a comment line with extra internal leading
and trailing spaces. -/
def docCmtPad : List (List Char) := [lnCmtPad, lnFoo1]

/-- Unterminated header containing an equals sign, below an active
section. -/
def docBadHdrEq : List (List Char) := [lnSecA, lnBadHdrEq]

/-- Unterminated header without an equals sign. -/
def docBadHdr : List (List Char) := [lnSecA, lnBadHdr]

/-- Entry line exercising both first-occurrence splits. -/
def docSplit : List (List Char) := [lnSecA, lnEqCmt]

/-- An orphan entry line above the first header. -/
def docOrphan : List (List Char) := [lnCmtC, lnFoo1, lnSecA, lnBar2]

/-- A bracketed header line containing an equals sign. -/
def docHdrEq : List (List Char) := [lnNote, lnHdrAB, lnX1]

def entBar : ConfigEntry := ⟨strBar, str2, [], 2, []⟩

def entTabFoo : ConfigEntry := ⟨strFoo, str1, [], 1, []⟩

def secTab : ConfigSection := ⟨strA, [], 0, [entTabFoo]⟩

def entSplit : ConfigEntry := ⟨strFoo, "a=b".toList, "c ; d".toList, 1, "c ; d".toList⟩

def secSplit : ConfigSection := ⟨strA, [], 0, [entSplit]⟩

/-- The entry the parser builds from the Bar line of docOrphan. -/
def entOrphanBar : ConfigEntry := ⟨strBar, str2, [], 3, []⟩

/-- The single section the parser builds from docOrphan. -/
def secOrphan : ConfigSection := ⟨strA, [], 2, [entOrphanBar]⟩

/-- A model entry whose recorded line number is out of range for a
one-line document. -/
def entFar : ConfigEntry := ⟨strFoo, str1, [], 9, []⟩

def secFar : ConfigSection := ⟨strA, [], 0, [entFar]⟩

def strLBSec : List Char := "[Sec".toList

def strTion : List Char := "tion".toList

/-- The entry that the parser actually builds from the unterminated header
line of docBadHdrEq. -/
def entBadHdr : ConfigEntry := ⟨strLBSec, strTion, [], 1, []⟩

def secBadHdrEq : ConfigSection := ⟨strA, [], 0, [entBadHdr]⟩

def valsConst2 : List Char → List Char → List Char := fun _ _ => str2

def valsEmpty : List Char → List Char → List Char := fun _ _ => []

/-- The widget state after editing exactly (A, Bar) to 3 in docLocal. -/
def valsEditBarCex : List Char → List Char → List Char :=
  fun s k => if s = strA ∧ k = strBar then str3
    else valsOf (parse_ini_with_comments docLocal) s k

/- ### Lemmas about Python-style stripping -/

theorem head_dropWhile_false {α : Type} (p : α → Bool) :
    ∀ (l : List α) {a : α}, (l.dropWhile p).head? = some a → p a = false := by
  intro l
  induction l with
  | nil => intro a h; simp [List.dropWhile] at h
  | cons b bs ih =>
    intro a h
    by_cases hb : p b = true
    · rw [List.dropWhile_cons_of_pos hb] at h
      exact ih h
    · rw [List.dropWhile_cons_of_neg hb] at h
      simp at h
      rw [← h]
      exact Bool.eq_false_iff.mpr hb

theorem rstrip_cons_cases (c : Char) (cs : List Char) :
    rstrip (c :: cs) = [] ∨ rstrip (c :: cs) = c :: rstrip cs := by
  by_cases h : rstrip cs = [] ∧ isPyWs c = true
  · left
    simp only [rstrip]
    rw [if_pos h]
  · right
    simp only [rstrip]
    rw [if_neg h]

theorem rstrip_idem : ∀ l : List Char, rstrip (rstrip l) = rstrip l := by
  intro l
  induction l with
  | nil => rfl
  | cons c cs ih =>
    by_cases h : rstrip cs = [] ∧ isPyWs c = true
    · have e : rstrip (c :: cs) = [] := by simp only [rstrip]; rw [if_pos h]
      rw [e]
      rfl
    · have e : rstrip (c :: cs) = c :: rstrip cs := by simp only [rstrip]; rw [if_neg h]
      rw [e]
      show (if rstrip (rstrip cs) = [] ∧ isPyWs c = true then [] else c :: rstrip (rstrip cs)) =
        c :: rstrip cs
      rw [ih, if_neg h]

theorem head_rstrip (l : List Char) {a : Char} (h : (rstrip l).head? = some a) :
    l.head? = some a := by
  cases l with
  | nil => simp [rstrip] at h
  | cons c cs =>
    rcases rstrip_cons_cases c cs with hc | hc
    · rw [hc] at h; simp at h
    · rw [hc] at h
      simp at h
      simp [h]

theorem dropWhile_eq_self_of_head {α : Type} (p : α → Bool) (l : List α)
    (h : ∀ a, l.head? = some a → p a = false) : l.dropWhile p = l := by
  cases l with
  | nil => rfl
  | cons c cs =>
    have hc : p c = false := h c rfl
    rw [List.dropWhile_cons_of_neg (by rw [hc]; simp)]

theorem pyStrip_idem (l : List Char) : pyStrip (pyStrip l) = pyStrip l := by
  show rstrip ((rstrip (l.dropWhile isPyWs)).dropWhile isPyWs) = rstrip (l.dropWhile isPyWs)
  rw [dropWhile_eq_self_of_head isPyWs _ (fun a ha => head_dropWhile_false isPyWs _ (head_rstrip _ ha))]
  exact rstrip_idem _

theorem head_pyStrip_false (l : List Char) {a : Char} (h : (pyStrip l).head? = some a) :
    isPyWs a = false :=
  head_dropWhile_false isPyWs _ (head_rstrip _ h)

theorem takeWhile_replicate_space (rest : List Char)
    (h : ∀ a, rest.head? = some a → isPyWs a = false) :
    ∀ k : Nat, (List.replicate k ' ' ++ rest).takeWhile isPyWs = List.replicate k ' ' := by
  intro k
  induction k with
  | zero =>
    simp only [List.replicate, List.nil_append]
    cases rest with
    | nil => rfl
    | cons c cs =>
      have hc : isPyWs c = false := h c rfl
      rw [List.takeWhile_cons_of_neg (by rw [hc]; simp)]
  | succ n ih =>
    rw [List.replicate_succ, List.cons_append,
      List.takeWhile_cons_of_pos (by decide), ih]

/- ### Lemmas about list indexing and updating -/

theorem lineAt_set_self : ∀ (l : List (List Char)) (n : Nat) (x : List Char),
    n < l.length → lineAt (l.set n x) n = x := by
  intro l
  induction l with
  | nil => intro n x h; simp at h
  | cons a as ih =>
    intro n x h
    cases n with
    | zero => rfl
    | succ m =>
      simp only [List.set, lineAt, List.getD]
      exact ih m x (by simpa using h)

theorem lineAt_set_ne : ∀ (l : List (List Char)) (n m : Nat) (x : List Char),
    n ≠ m → lineAt (l.set n x) m = lineAt l m := by
  intro l
  induction l with
  | nil => intro n m x _; simp [List.set]
  | cons a as ih =>
    intro n m x hnm
    cases n with
    | zero =>
      cases m with
      | zero => exact absurd rfl hnm
      | succ k => rfl
    | succ j =>
      cases m with
      | zero => rfl
      | succ k =>
        simp only [List.set, lineAt, List.getD]
        exact ih j k x (fun he => hnm (by rw [he]))

theorem set_lineAt_self : ∀ (l : List (List Char)) (n : Nat),
    l.set n (lineAt l n) = l := by
  intro l
  induction l with
  | nil => intro n; rfl
  | cons a as ih =>
    intro n
    cases n with
    | zero => rfl
    | succ m =>
      show a :: as.set m (lineAt (a :: as) (m + 1)) = a :: as
      have : lineAt (a :: as) (m + 1) = lineAt as m := rfl
      rw [this, ih]

/- ### Lemmas about the writer fold -/

theorem foldl_saveStep_error (vals : List Char → List Char → List Char)
    (err : SaveError) :
    ∀ ps : List (List Char × ConfigEntry),
      ps.foldl (saveStep vals) (.error err) = .error err := by
  intro ps
  induction ps with
  | nil => rfl
  | cons p ps ih => exact ih

theorem save_ini_eq_foldPairs (lines : List (List Char))
    (sections : List ConfigSection) (vals : List Char → List Char → List Char) :
    save_ini lines sections vals = (allPairs sections).foldl (saveStep vals) (.ok lines) := by
  show List.foldl _ (Except.ok lines) sections = _
  generalize Except.ok lines = acc
  induction sections generalizing acc with
  | nil => rfl
  | cons sec rest ih =>
    show List.foldl _ (sec.entries.foldl (fun a e => saveStep vals a (sec.name, e)) acc) rest = _
    rw [ih]
    show _ = ((sec.entries.map fun e => (sec.name, e)) ++ allPairs rest).foldl (saveStep vals) acc
    rw [List.foldl_append, List.foldl_map]

theorem foldl_saveStep_ok_length (vals : List Char → List Char → List Char) :
    ∀ (ps : List (List Char × ConfigEntry)) (ls out : List (List Char)),
      ps.foldl (saveStep vals) (.ok ls) = .ok out → out.length = ls.length := by
  intro ps
  induction ps with
  | nil =>
    intro ls out h
    cases h
    rfl
  | cons p ps ih =>
    intro ls out h
    by_cases hr : p.2.line_number < ls.length
    · have hs : saveStep vals (.ok ls) p =
          .ok (ls.set p.2.line_number
            (rewriteLine (lineAt ls p.2.line_number) p.2 (vals p.1 p.2.name))) := by
        show writeEntry ls p.2 (vals p.1 p.2.name) = _
        rw [writeEntry, if_pos hr]
      rw [List.foldl_cons, hs] at h
      have := ih _ _ h
      rw [this, List.length_set]
    · have hs : saveStep vals (.ok ls) p = .error .documentMismatch := by
        show writeEntry ls p.2 (vals p.1 p.2.name) = _
        rw [writeEntry, if_neg hr]
      rw [List.foldl_cons, hs, foldl_saveStep_error] at h
      cases h

theorem foldl_saveStep_frame (vals : List Char → List Char → List Char) :
    ∀ (ps : List (List Char × ConfigEntry)) (ls out : List (List Char)) (j : Nat),
      ps.foldl (saveStep vals) (.ok ls) = .ok out →
      (∀ p ∈ ps, p.2.line_number ≠ j) → lineAt out j = lineAt ls j := by
  intro ps
  induction ps with
  | nil =>
    intro ls out j h _
    cases h
    rfl
  | cons p ps ih =>
    intro ls out j h hnj
    by_cases hr : p.2.line_number < ls.length
    · have hs : saveStep vals (.ok ls) p =
          .ok (ls.set p.2.line_number
            (rewriteLine (lineAt ls p.2.line_number) p.2 (vals p.1 p.2.name))) := by
        show writeEntry ls p.2 (vals p.1 p.2.name) = _
        rw [writeEntry, if_pos hr]
      rw [List.foldl_cons, hs] at h
      have hrec := ih _ _ j h (fun q hq => hnj q (List.mem_cons_of_mem p hq))
      rw [hrec, lineAt_set_ne _ _ _ _ (hnj p (List.mem_cons_self p ps))]
    · have hs : saveStep vals (.ok ls) p = .error .documentMismatch := by
        show writeEntry ls p.2 (vals p.1 p.2.name) = _
        rw [writeEntry, if_neg hr]
      rw [List.foldl_cons, hs, foldl_saveStep_error] at h
      cases h

theorem foldl_saveStep_id (vals : List Char → List Char → List Char) :
    ∀ (ps : List (List Char × ConfigEntry)) (ls : List (List Char)),
      (∀ p ∈ ps, writeEntry ls p.2 (vals p.1 p.2.name) = .ok ls) →
      ps.foldl (saveStep vals) (.ok ls) = .ok ls := by
  intro ps
  induction ps with
  | nil => intro ls _; rfl
  | cons p ps ih =>
    intro ls hid
    have hs : saveStep vals (.ok ls) p = .ok ls := hid p (List.mem_cons_self p ps)
    rw [List.foldl_cons, hs]
    exact ih ls (fun q hq => hid q (List.mem_cons_of_mem p hq))

/- ### Parser loop equations -/

theorem mkEntry_line (lines : List (List Char)) (s : List Char) (i : Nat) :
    (mkEntry lines s i).line_number = i := by
  unfold mkEntry
  split <;> rfl

theorem processLine_of_skip (lines : List (List Char)) (st : ParseState) (i : Nat)
    (h : isSkip (stripAt lines i)) : processLine lines st i = st := by
  unfold processLine
  rw [if_pos h]

theorem processLine_of_header (lines : List (List Char)) (st : ParseState) (i : Nat)
    (h1 : ¬ isSkip (stripAt lines i)) (h2 : isHeader (stripAt lines i)) :
    processLine lines st i =
      ⟨st.done ++ st.cur.toList,
        some ⟨headerName (stripAt lines i), parse_comments lines i, i, []⟩⟩ := by
  unfold processLine
  rw [if_neg h1, if_pos h2]

theorem processLine_of_entry_none (lines : List (List Char)) (st : ParseState) (i : Nat)
    (h1 : ¬ isSkip (stripAt lines i)) (h2 : ¬ isHeader (stripAt lines i))
    (hc : st.cur = none) : processLine lines st i = st := by
  unfold processLine
  rw [if_neg h1, if_neg h2]
  by_cases he : '=' ∈ stripAt lines i
  · rw [if_pos he, hc]
  · rw [if_neg he]

theorem processLine_of_entry_some (lines : List (List Char)) (st : ParseState) (i : Nat)
    (c : ConfigSection) (h1 : ¬ isSkip (stripAt lines i))
    (h2 : ¬ isHeader (stripAt lines i)) (he : '=' ∈ stripAt lines i)
    (hc : st.cur = some c) :
    processLine lines st i = ⟨st.done, some ⟨c.name, c.tooltip, c.line_number,
      c.entries ++ [mkEntry lines (stripAt lines i) i]⟩⟩ := by
  unfold processLine
  rw [if_neg h1, if_neg h2, if_pos he, hc]

theorem processLine_of_noEq (lines : List (List Char)) (st : ParseState) (i : Nat)
    (h1 : ¬ isSkip (stripAt lines i)) (h2 : ¬ isHeader (stripAt lines i))
    (he : '=' ∉ stripAt lines i) : processLine lines st i = st := by
  unfold processLine
  rw [if_neg h1, if_neg h2, if_neg he]

theorem stateUpTo_succ (lines : List (List Char)) (n : Nat) :
    stateUpTo lines (n + 1) = processLine lines (stateUpTo lines n) n := by
  unfold stateUpTo
  rw [List.range_succ, List.foldl_append]
  rfl

theorem isHeader_not_skip {s : List Char} (h : isHeader s) : ¬ isSkip s := by
  rcases h with ⟨h1, _⟩
  intro hs
  rcases hs with he | hc
  · rw [he] at h1
    simp at h1
  · have : some ';' = some '[' := hc.symm.trans h1
    simp at this

/- ### Monotonicity of the well-formedness predicates -/

theorem EntryWF_mono {lines : List (List Char)} {n m : Nat} {e : ConfigEntry}
    (hnm : n ≤ m) (h : EntryWF lines n e) : EntryWF lines m e := by
  obtain ⟨h1, h2, h3, h4, h5⟩ := h
  exact ⟨Nat.lt_of_lt_of_le h1 hnm, h2, h3, h4, h5⟩

theorem SecWF_mono {lines : List (List Char)} {n m : Nat} {sec : ConfigSection}
    (hnm : n ≤ m) (h : SecWF lines n sec) : SecWF lines m sec := by
  obtain ⟨h1, h2, h3, h4, h5⟩ := h
  exact ⟨Nat.lt_of_lt_of_le h1 hnm, h2, h3, h4, fun e he => EntryWF_mono hnm (h5 e he)⟩

/- ### Traversal-order line number list -/

theorem tline_append (a b : List ConfigSection) : tline (a ++ b) = tline a ++ tline b := by
  simp [tline]

theorem tline_single (sec : ConfigSection) :
    tline [sec] = sec.line_number :: sec.entries.map (fun e => e.line_number) := by
  simp [tline]

theorem pairwise_tline_concat (ts : List Nat) (n : Nat) (hpw : ts.Pairwise (· < ·))
    (hlt : ∀ x ∈ ts, x < n) : (ts ++ [n]).Pairwise (· < ·) := by
  rw [List.pairwise_append]
  refine ⟨hpw, List.pairwise_singleton _ n, ?_⟩
  intro a ha b hb
  rw [List.mem_singleton.mp hb]
  exact hlt a ha

/- ### The parser invariant -/

theorem parseInv_extend (lines : List (List Char)) (n : Nat) (st : ParseState)
    (h : ParseInv lines n st) (hnh : ¬ isHeader (stripAt lines n)) :
    ParseInv lines (n + 1) st := by
  obtain ⟨hwf, hpw, hlt, hcomp⟩ := h
  refine ⟨fun sec hs => SecWF_mono (Nat.le_succ n) (hwf sec hs), hpw,
    fun x hx => Nat.lt_succ_of_lt (hlt x hx), ?_⟩
  intro j hj hhj
  rcases Nat.lt_succ_iff_lt_or_eq.mp hj with hj' | hj'
  · exact hcomp j hj' hhj
  · subst hj'
    exact absurd hhj hnh

theorem parseInv_step (lines : List (List Char)) (n : Nat) (st : ParseState)
    (h : ParseInv lines n st) : ParseInv lines (n + 1) (processLine lines st n) := by
  by_cases hskip : isSkip (stripAt lines n)
  · rw [processLine_of_skip lines st n hskip]
    exact parseInv_extend lines n st h (fun hh => isHeader_not_skip hh hskip)
  · by_cases hhdr : isHeader (stripAt lines n)
    · rw [processLine_of_header lines st n hskip hhdr]
      obtain ⟨hwf, hpw, hlt, hcomp⟩ := h
      have hsnap : snapshot (⟨st.done ++ st.cur.toList,
          some ⟨headerName (stripAt lines n), parse_comments lines n, n, []⟩⟩ : ParseState) =
          snapshot st ++ [⟨headerName (stripAt lines n), parse_comments lines n, n, []⟩] := rfl
      refine ⟨?_, ?_, ?_, ?_⟩
      · intro sec hs
        rw [hsnap] at hs
        rcases List.mem_append.mp hs with h1 | h1
        · exact SecWF_mono (Nat.le_succ n) (hwf sec h1)
        · rw [List.mem_singleton.mp h1]
          exact ⟨Nat.lt_succ_self n, hhdr, rfl, rfl,
            fun e he => absurd he (List.not_mem_nil e)⟩
      · rw [hsnap, tline_append, tline_single]
        exact pairwise_tline_concat _ n hpw hlt
      · intro x hx
        rw [hsnap, tline_append, tline_single] at hx
        rcases List.mem_append.mp hx with h1 | h1
        · exact Nat.lt_succ_of_lt (hlt x h1)
        · rw [List.mem_singleton.mp h1]
          exact Nat.lt_succ_self n
      · intro j hj hhj
        rcases Nat.lt_succ_iff_lt_or_eq.mp hj with hj' | hj'
        · obtain ⟨sec, hsec, hline⟩ := hcomp j hj' hhj
          refine ⟨sec, ?_, hline⟩
          rw [hsnap]
          exact List.mem_append_left _ hsec
        · subst hj'
          refine ⟨⟨headerName (stripAt lines j), parse_comments lines j, j, []⟩, ?_, rfl⟩
          rw [hsnap]
          exact List.mem_append_right _ (List.mem_singleton_self _)
    · cases hc : st.cur with
      | none =>
        rw [processLine_of_entry_none lines st n hskip hhdr hc]
        exact parseInv_extend lines n st h hhdr
      | some c =>
        by_cases heq : '=' ∈ stripAt lines n
        · rw [processLine_of_entry_some lines st n c hskip hhdr heq hc]
          obtain ⟨hwf, hpw, hlt, hcomp⟩ := h
          have hsnapold : snapshot st = st.done ++ [c] := by
            rw [snapshot, hc]
            rfl
          have hcwf : SecWF lines n c := by
            apply hwf c
            rw [hsnapold]
            exact List.mem_append_right _ (List.mem_singleton_self c)
          have hsnapnew : snapshot (⟨st.done, some ⟨c.name, c.tooltip, c.line_number,
              c.entries ++ [mkEntry lines (stripAt lines n) n]⟩⟩ : ParseState) =
              st.done ++ [⟨c.name, c.tooltip, c.line_number,
                c.entries ++ [mkEntry lines (stripAt lines n) n]⟩] := rfl
          have htl : tline (st.done ++ [(⟨c.name, c.tooltip, c.line_number,
              c.entries ++ [mkEntry lines (stripAt lines n) n]⟩ : ConfigSection)]) =
              tline (snapshot st) ++ [n] := by
            rw [hsnapold, tline_append, tline_append, tline_single, tline_single]
            simp [List.map_append, mkEntry_line]
          refine ⟨?_, ?_, ?_, ?_⟩
          · intro sec hs
            rw [hsnapnew] at hs
            rcases List.mem_append.mp hs with h1 | h1
            · apply SecWF_mono (Nat.le_succ n)
              apply hwf sec
              rw [hsnapold]
              exact List.mem_append_left _ h1
            · rw [List.mem_singleton.mp h1]
              obtain ⟨hc1, hc2, hc3, hc4, hc5⟩ := hcwf
              refine ⟨Nat.lt_succ_of_lt hc1, hc2, hc3, hc4, ?_⟩
              intro e he
              rcases List.mem_append.mp he with h2 | h2
              · exact EntryWF_mono (Nat.le_succ n) (hc5 e h2)
              · rw [List.mem_singleton.mp h2]
                refine ⟨?_, ?_, ?_, ?_, ?_⟩
                · rw [mkEntry_line]
                  exact Nat.lt_succ_self n
                · rw [mkEntry_line]
                  exact hskip
                · rw [mkEntry_line]
                  exact hhdr
                · rw [mkEntry_line]
                  exact heq
                · rw [mkEntry_line]
          · rw [hsnapnew, htl]
            exact pairwise_tline_concat _ n hpw hlt
          · intro x hx
            rw [hsnapnew, htl] at hx
            rcases List.mem_append.mp hx with h1 | h1
            · exact Nat.lt_succ_of_lt (hlt x h1)
            · rw [List.mem_singleton.mp h1]
              exact Nat.lt_succ_self n
          · intro j hj hhj
            rcases Nat.lt_succ_iff_lt_or_eq.mp hj with hj' | hj'
            · obtain ⟨sec, hsec, hline⟩ := hcomp j hj' hhj
              rw [hsnapold] at hsec
              rcases List.mem_append.mp hsec with h1 | h1
              · refine ⟨sec, ?_, hline⟩
                rw [hsnapnew]
                exact List.mem_append_left _ h1
              · refine ⟨⟨c.name, c.tooltip, c.line_number,
                  c.entries ++ [mkEntry lines (stripAt lines n) n]⟩, ?_, ?_⟩
                · rw [hsnapnew]
                  exact List.mem_append_right _ (List.mem_singleton_self _)
                · rw [List.mem_singleton.mp h1] at hline
                  exact hline
            · subst hj'
              exact absurd hhj hhdr
        · rw [processLine_of_noEq lines st n hskip hhdr heq]
          exact parseInv_extend lines n st h hhdr

theorem parseInv_stateUpTo (lines : List (List Char)) :
    ∀ n : Nat, ParseInv lines n (stateUpTo lines n) := by
  intro n
  induction n with
  | zero =>
    refine ⟨?_, ?_, ?_, ?_⟩
    · intro sec hs
      exact absurd hs (List.not_mem_nil sec)
    · exact List.Pairwise.nil
    · intro x hx
      exact absurd hx (List.not_mem_nil x)
    · intro j hj _
      exact absurd hj (Nat.not_lt_zero j)
  | succ m ih =>
    rw [stateUpTo_succ]
    exact parseInv_step lines m (stateUpTo lines m) ih

theorem parse_inv (lines : List (List Char)) :
    ParseInv lines lines.length (stateUpTo lines lines.length) :=
  parseInv_stateUpTo lines lines.length

theorem parse_secWF (lines : List (List Char)) :
    ∀ sec ∈ parse_ini_with_comments lines, SecWF lines lines.length sec :=
  (parse_inv lines).1

theorem parse_tline_pairwise (lines : List (List Char)) :
    (tline (parse_ini_with_comments lines)).Pairwise (· < ·) :=
  (parse_inv lines).2.1

theorem parse_tline_lt (lines : List (List Char)) :
    ∀ x ∈ tline (parse_ini_with_comments lines), x < lines.length :=
  (parse_inv lines).2.2.1

theorem parse_complete (lines : List (List Char)) :
    ∀ j, j < lines.length → isHeader (stripAt lines j) →
      ∃ sec ∈ parse_ini_with_comments lines, sec.line_number = j :=
  (parse_inv lines).2.2.2

/- ### Consequences of the parser invariant -/

theorem tline_block_sublist (secs : List ConfigSection) (sec : ConfigSection)
    (h : sec ∈ secs) :
    (sec.line_number :: sec.entries.map (fun e => e.line_number)).Sublist (tline secs) := by
  obtain ⟨l1, l2, rfl⟩ := List.append_of_mem h
  rw [tline_append]
  have h2 : tline (sec :: l2) =
      (sec.line_number :: sec.entries.map (fun e => e.line_number)) ++ tline l2 := by
    simp [tline]
  rw [h2]
  exact (List.sublist_append_left _ _).trans (List.sublist_append_right _ _)

theorem sec_lt_entry (lines : List (List Char)) (sec : ConfigSection) (e : ConfigEntry)
    (hs : sec ∈ parse_ini_with_comments lines) (he : e ∈ sec.entries) :
    sec.line_number < e.line_number := by
  have hpw := (parse_tline_pairwise lines).sublist
    (tline_block_sublist (parse_ini_with_comments lines) sec hs)
  have := (List.pairwise_cons.mp hpw).1
  exact this e.line_number (List.mem_map_of_mem (fun e => e.line_number) he)

theorem parse_entry_lt (lines : List (List Char)) (sec : ConfigSection) (e : ConfigEntry)
    (hs : sec ∈ parse_ini_with_comments lines) (he : e ∈ sec.entries) :
    e.line_number < lines.length := by
  apply parse_tline_lt lines
  apply (tline_block_sublist (parse_ini_with_comments lines) sec hs).subset
  exact List.mem_cons_of_mem _ (List.mem_map_of_mem (fun e => e.line_number) he)

theorem parse_sec_lt (lines : List (List Char)) (sec : ConfigSection)
    (hs : sec ∈ parse_ini_with_comments lines) : sec.line_number < lines.length := by
  apply parse_tline_lt lines
  apply (tline_block_sublist (parse_ini_with_comments lines) sec hs).subset
  exact List.mem_cons_self _ _

theorem mem_of_allPairs {secs : List ConfigSection} {p : List Char × ConfigEntry}
    (h : p ∈ allPairs secs) : ∃ sec ∈ secs, sec.name = p.1 ∧ p.2 ∈ sec.entries := by
  obtain ⟨l, hl, hp⟩ := List.mem_flatten.mp h
  obtain ⟨sec, hsec, rfl⟩ := List.mem_map.mp hl
  obtain ⟨e, he, hpe⟩ := List.mem_map.mp hp
  refine ⟨sec, hsec, ?_, ?_⟩
  · rw [← hpe]
  · rw [← hpe]
    exact he

theorem allPairs_mem {secs : List ConfigSection} {sec : ConfigSection} {e : ConfigEntry}
    (hs : sec ∈ secs) (he : e ∈ sec.entries) : (sec.name, e) ∈ allPairs secs := by
  apply List.mem_flatten.mpr
  refine ⟨sec.entries.map (fun x => (sec.name, x)), ?_, ?_⟩
  · exact List.mem_map_of_mem _ hs
  · exact List.mem_map_of_mem _ he

theorem pairsLines_sublist (secs : List ConfigSection) :
    ((allPairs secs).map (fun p => p.2.line_number)).Sublist (tline secs) := by
  induction secs with
  | nil => simp [allPairs, tline]
  | cons sec rest ih =>
    have h1 : allPairs (sec :: rest) =
        sec.entries.map (fun e => (sec.name, e)) ++ allPairs rest := by
      simp [allPairs]
    have h2 : tline (sec :: rest) =
        (sec.line_number :: sec.entries.map (fun e => e.line_number)) ++ tline rest := by
      simp [tline]
    rw [h1, h2, List.map_append]
    apply List.Sublist.append ?_ ih
    have h3 : (sec.entries.map (fun e => (sec.name, e))).map (fun p => p.2.line_number) =
        sec.entries.map (fun e => e.line_number) := by
      rw [List.map_map]
      rfl
    rw [h3]
    exact List.sublist_cons_self _ _

theorem parse_entryLines_ne (lines : List (List Char)) :
    ((allPairs (parse_ini_with_comments lines)).map (fun p => p.2.line_number)).Pairwise (· ≠ ·) :=
  ((parse_tline_pairwise lines).sublist
    (pairsLines_sublist (parse_ini_with_comments lines))).imp Nat.ne_of_lt

/- ### First-occurrence splitting -/

theorem head_dropWhile_ne (t : Char) :
    ∀ s : List Char, t ∈ s → (s.dropWhile (fun c => !(c == t))).head? = some t := by
  intro s
  induction s with
  | nil => intro h; cases h
  | cons c cs ih =>
    intro h
    by_cases hc : c = t
    · subst hc
      rw [List.dropWhile_cons_of_neg (by simp)]
      rfl
    · have hmem : t ∈ cs := by
        rcases List.mem_cons.mp h with h1 | h1
        · exact absurd h1.symm hc
        · exact h1
      rw [List.dropWhile_cons_of_pos (by simp [hc])]
      exact ih hmem

theorem splitAtFirst_decomp (t : Char) (s : List Char) (h : t ∈ s) :
    s = (splitAtFirst t s).1 ++ t :: (splitAtFirst t s).2 ∧ t ∉ (splitAtFirst t s).1 := by
  constructor
  · have hd := head_dropWhile_ne t s h
    have hsplit := List.takeWhile_append_dropWhile (p := fun c => !(c == t)) (l := s)
    cases hdw : s.dropWhile (fun c => !(c == t)) with
    | nil => rw [hdw] at hd; cases hd
    | cons x xs =>
      rw [hdw] at hd
      have hx : x = t := by
        simp at hd
        exact hd
      show s = (s.takeWhile fun c => !(c == t)) ++ t :: (s.dropWhile (fun c => !(c == t))).drop 1
      conv_lhs => rw [← hsplit]
      rw [hdw, hx]
      simp
  · intro hmem
    have := List.mem_takeWhile_imp hmem
    simp at this

theorem splitAtFirst_of_append (t : Char) :
    ∀ (a b : List Char), t ∉ a → splitAtFirst t (a ++ t :: b) = (a, b) := by
  intro a
  induction a with
  | nil =>
    intro b _
    show ((t :: b).takeWhile (fun c => !(c == t)), ((t :: b).dropWhile (fun c => !(c == t))).drop 1) = ([], b)
    rw [List.takeWhile_cons_of_neg (by simp), List.dropWhile_cons_of_neg (by simp)]
    rfl
  | cons x xs ih =>
    intro b hna
    have hx : ¬ x = t := fun hxt => hna (by rw [hxt]; exact List.mem_cons_self t xs)
    have hxs : t ∉ xs := fun hm => hna (List.mem_cons_of_mem x hm)
    have hrec := ih b hxs
    show (((x :: xs) ++ t :: b).takeWhile (fun c => !(c == t)),
      (((x :: xs) ++ t :: b).dropWhile (fun c => !(c == t))).drop 1) = (x :: xs, b)
    rw [List.cons_append, List.takeWhile_cons_of_pos (by simp [hx]),
      List.dropWhile_cons_of_pos (by simp [hx])]
    have h1 : (xs ++ t :: b).takeWhile (fun c => !(c == t)) = xs := congrArg Prod.fst hrec
    have h2 : ((xs ++ t :: b).dropWhile (fun c => !(c == t))).drop 1 = b := congrArg Prod.snd hrec
    rw [h1, h2]

/- ### Filtering a unique match -/

theorem filter_eq_singleton_split {α : Type} (p : α → Bool) :
    ∀ (l : List α) (a : α), l.filter p = [a] →
      ∃ l1 l2, l = l1 ++ a :: l2 ∧ l1.filter p = [] ∧ l2.filter p = [] ∧ p a = true := by
  intro l
  induction l with
  | nil => intro a h; cases h
  | cons b bs ih =>
    intro a h
    by_cases hb : p b = true
    · rw [List.filter_cons_of_pos hb] at h
      have hba : b = a := (List.cons.inj h).1
      have hbs : bs.filter p = [] := (List.cons.inj h).2
      subst hba
      exact ⟨[], bs, rfl, rfl, hbs, hb⟩
    · rw [List.filter_cons_of_neg (by simpa using hb)] at h
      obtain ⟨l1, l2, rfl, h1, h2, h3⟩ := ih a h
      refine ⟨b :: l1, l2, rfl, ?_, h2, h3⟩
      rw [List.filter_cons_of_neg (by simpa using hb), h1]

/- ### Field equations of mkEntry -/

theorem mkEntry_name (lines : List (List Char)) (s : List Char) (i : Nat) :
    (mkEntry lines s i).name = pyStrip (splitAtFirst '=' s).1 := by
  unfold mkEntry
  split <;> rfl

theorem mkEntry_of_semi (lines : List (List Char)) (s : List Char) (i : Nat)
    (h : ';' ∈ pyStrip (splitAtFirst '=' s).2) :
    (mkEntry lines s i).value =
        pyStrip (splitAtFirst ';' (pyStrip (splitAtFirst '=' s).2)).1 ∧
      (mkEntry lines s i).inline_comment =
        pyStrip (splitAtFirst ';' (pyStrip (splitAtFirst '=' s).2)).2 := by
  unfold mkEntry
  rw [if_pos h]
  exact ⟨rfl, rfl⟩

theorem mkEntry_of_noSemi (lines : List (List Char)) (s : List Char) (i : Nat)
    (h : ';' ∉ pyStrip (splitAtFirst '=' s).2) :
    (mkEntry lines s i).value = pyStrip (splitAtFirst '=' s).2 ∧
      (mkEntry lines s i).inline_comment = [] := by
  unfold mkEntry
  rw [if_neg h]
  exact ⟨rfl, rfl⟩

theorem head_entryText_false (e : ConfigEntry) (v : List Char) (x : List Char)
    (hn : e.name = pyStrip x) {a : Char}
    (h : (entryText e v ++ ['\n']).head? = some a) : isPyWs a = false := by
  have hshape : ∃ t, entryText e v ++ ['\n'] = e.name ++ '=' :: t := by
    unfold entryText
    split
    · exact ⟨v ++ ['\n'], by simp⟩
    · exact ⟨v ++ '\t' :: '\t' :: '\t' :: ';' :: ' ' :: e.inline_comment ++ ['\n'], by simp⟩
  obtain ⟨t, ht⟩ := hshape
  rw [ht] at h
  cases hx : pyStrip x with
  | nil =>
    rw [hn, hx] at h
    simp at h
    rw [← h]
    decide
  | cons c cs =>
    rw [hn, hx] at h
    simp at h
    rw [← h]
    exact head_pyStrip_false x (by rw [hx]; rfl)

/- ### Claim C4 -/

/-- Claim C4 (corrected): the leading-comment scan does not merely remove
the marker and one whitespace character: it removes the marker together
with all surrounding whitespace.  Every collected comment line is fully
stripped, i.e. fixed by pyStrip. -/
theorem claim4_commentStrip_amended (lines : List (List Char)) (idx : Nat)
    (c : List Char) (hc : c ∈ parse_comments_list lines idx) : pyStrip c = c := by
  induction idx with
  | zero => cases hc
  | succ m ih =>
    unfold parse_comments_list at hc
    by_cases h1 : (stripAt lines m).head? = some ';'
    · rw [if_pos h1] at hc
      rcases List.mem_append.mp hc with h2 | h2
      · exact ih h2
      · rw [List.mem_singleton.mp h2]
        exact pyStrip_idem _
    · rw [if_neg h1] at hc
      by_cases h2 : stripAt lines m = []
      · rw [if_pos h2] at hc
        exact ih hc
      · rw [if_neg h2] at hc
        cases hc

/-- Witness for claim C4: the padded comment line of docCmtPad is collected
fully stripped. -/
theorem claim4_commentStrip_wit : pyStrip strHello = strHello :=
  claim4_commentStrip_amended docCmtPad 1 strHello (by decide)

/-- Counterexample for claim C4 as stated: the comment line with three
spaces after the marker and two trailing spaces is collected as a fully
stripped text, not with the extra whitespace retained. -/
theorem claim4_commentStrip_cex :
    parse_comments docCmtPad 1 = strHello ∧ parse_comments docCmtPad 1 ≠ strHelloPad := by
  constructor
  · decide
  · decide

/- ### Claim C5 -/

/-- Counterexample for claim C5 as stated: an unterminated header line
containing an equals sign below an active section is parsed as an entry
(named with the opening bracket), so the line is not simply ignored. -/
theorem claim5_unterminatedHeader_cex :
    parse_ini_with_comments docBadHdrEq = [secBadHdrEq] := by decide

/-- Claim C5 (corrected): a line whose stripped text starts with an opening
bracket but does not end with a closing bracket is never recognised as a
section header; if it additionally contains no equals sign it produces
no entry either.  (With an equals sign and an active section it is
parsed as an ordinary entry line.) -/
theorem claim5_unterminatedHeader_amended (lines : List (List Char)) (i : Nat)
    (_h1 : (stripAt lines i).head? = some '[')
    (h2 : (stripAt lines i).getLast? ≠ some ']') :
    (∀ sec ∈ parse_ini_with_comments lines, sec.line_number ≠ i) ∧
    ('=' ∉ stripAt lines i →
      ∀ sec ∈ parse_ini_with_comments lines, ∀ e ∈ sec.entries, e.line_number ≠ i) := by
  constructor
  · intro sec hs hl
    have hh := (parse_secWF lines sec hs).2.1
    rw [hl] at hh
    exact h2 hh.2
  · intro hne sec hs e he hl
    have hwf := (parse_secWF lines sec hs).2.2.2.2 e he
    have hmem := hwf.2.2.2.1
    rw [hl] at hmem
    exact hne hmem

/-- Witness for claim C5: the unterminated header line of docBadHdr yields
neither a section nor an entry. -/
theorem claim5_unterminatedHeader_wit :
    (∀ sec ∈ parse_ini_with_comments docBadHdr, sec.line_number ≠ 1) ∧
    ('=' ∉ stripAt docBadHdr 1 →
      ∀ sec ∈ parse_ini_with_comments docBadHdr, ∀ e ∈ sec.entries, e.line_number ≠ 1) :=
  claim5_unterminatedHeader_amended docBadHdr 1 (by decide) (by decide)

/- ### Claim C6 -/

/-- Claim C6 (confirmed): every parsed entry is split from its source line
at the first equals sign only, and, when the stripped value contains a
comment marker, at the first marker only, the trimmed parts becoming
value and inline comment. -/
theorem claim6_entrySplit (lines : List (List Char)) (sec : ConfigSection)
    (e : ConfigEntry) (hs : sec ∈ parse_ini_with_comments lines)
    (he : e ∈ sec.entries) :
    ∃ n0 rest, stripAt lines e.line_number = n0 ++ '=' :: rest ∧ '=' ∉ n0 ∧
      e.name = pyStrip n0 ∧
      (';' ∉ pyStrip rest → e.value = pyStrip rest ∧ e.inline_comment = []) ∧
      (∀ vb va, pyStrip rest = vb ++ ';' :: va → ';' ∉ vb →
        e.value = pyStrip vb ∧ e.inline_comment = pyStrip va) := by
  have hwf := (parse_secWF lines sec hs).2.2.2.2 e he
  obtain ⟨hlt, hsk, hhd, heq, hemk⟩ := hwf
  obtain ⟨hdec, hnot⟩ := splitAtFirst_decomp '=' (stripAt lines e.line_number) heq
  refine ⟨(splitAtFirst '=' (stripAt lines e.line_number)).1,
    (splitAtFirst '=' (stripAt lines e.line_number)).2, hdec, hnot, ?_, ?_, ?_⟩
  · conv_lhs => rw [hemk]
    rw [mkEntry_name]
  · intro hns
    have h := mkEntry_of_noSemi lines (stripAt lines e.line_number) e.line_number hns
    constructor
    · conv_lhs => rw [hemk]
      exact h.1
    · conv_lhs => rw [hemk]
      exact h.2
  · intro vb va hsp hnvb
    have hsem : ';' ∈ pyStrip (splitAtFirst '=' (stripAt lines e.line_number)).2 := by
      rw [hsp]
      exact List.mem_append_right _ (List.mem_cons_self _ _)
    have hM := mkEntry_of_semi lines (stripAt lines e.line_number) e.line_number hsem
    have hU := splitAtFirst_of_append ';' vb va hnvb
    constructor
    · conv_lhs => rw [hemk]
      rw [hM.1, hsp, hU]
    · conv_lhs => rw [hemk]
      rw [hM.2, hsp, hU]

/-- Witness for claim C6: the entry of docSplit with both an internal
equals sign and an internal marker in the comment part. -/
theorem claim6_entrySplit_wit :
    ∃ n0 rest, stripAt docSplit entSplit.line_number = n0 ++ '=' :: rest ∧ '=' ∉ n0 ∧
      entSplit.name = pyStrip n0 ∧
      (';' ∉ pyStrip rest → entSplit.value = pyStrip rest ∧ entSplit.inline_comment = []) ∧
      (∀ vb va, pyStrip rest = vb ++ ';' :: va → ';' ∉ vb →
        entSplit.value = pyStrip vb ∧ entSplit.inline_comment = pyStrip va) :=
  claim6_entrySplit docSplit secSplit entSplit (by decide) (by decide)

/- ### Claim C7 -/

/-- Claim C7 (confirmed): a line with an equals sign before any section
header produces no entry: every entry's recorded line lies strictly
below some header line, so a line index with no header above it is never
an entry's line.  (The parser is total, so no error is possible.) -/
theorem claim7_orphan (lines : List (List Char)) (i : Nat)
    (hnoh : ∀ j, j < i → ¬ isHeader (stripAt lines j)) :
    ∀ sec ∈ parse_ini_with_comments lines, ∀ e ∈ sec.entries, e.line_number ≠ i := by
  intro sec hs e he hei
  have h1 : sec.line_number < i := by
    rw [← hei]
    exact sec_lt_entry lines sec e hs he
  have h2 : isHeader (stripAt lines sec.line_number) := (parse_secWF lines sec hs).2.1
  exact hnoh sec.line_number h1 h2

/-- Witness for claim C7: in docOrphan the orphan entry line is line 1
(below only a comment line); the one entry the parser does build sits at
line 3, not at line 1. -/
theorem claim7_orphan_wit : entOrphanBar.line_number ≠ 1 :=
  claim7_orphan docOrphan 1 (by decide) secOrphan (by decide) entOrphanBar (by decide)

/- ### Claim C9 -/

/-- Claim C9 (confirmed): a line whose stripped text both starts with an
opening bracket and ends with a closing bracket is taken as a section
header even when it contains an equals sign: it yields a section named
with the text between the brackets and never an entry. -/
theorem claim9_headerPrecedence (lines : List (List Char)) (i : Nat)
    (hlen : i < lines.length)
    (h1 : (stripAt lines i).head? = some '[')
    (h2 : (stripAt lines i).getLast? = some ']')
    (_h3 : '=' ∈ stripAt lines i) :
    (∃ sec ∈ parse_ini_with_comments lines, sec.line_number = i ∧
      sec.name = headerName (stripAt lines i)) ∧
    ∀ sec ∈ parse_ini_with_comments lines, ∀ e ∈ sec.entries, e.line_number ≠ i := by
  have hh : isHeader (stripAt lines i) := ⟨h1, h2⟩
  constructor
  · obtain ⟨sec, hs, hl⟩ := parse_complete lines i hlen hh
    refine ⟨sec, hs, hl, ?_⟩
    have hname := (parse_secWF lines sec hs).2.2.1
    rw [hname, hl]
  · intro sec hs e he hei
    have hwf := (parse_secWF lines sec hs).2.2.2.2 e he
    apply hwf.2.2.1
    rw [hei]
    exact hh

/-- Witness for claim C9: the line [a=b] of docHdrEq becomes a section
named a=b and no entry. -/
theorem claim9_headerPrecedence_wit :
    (∃ sec ∈ parse_ini_with_comments docHdrEq, sec.line_number = 1 ∧
      sec.name = headerName (stripAt docHdrEq 1)) ∧
    ∀ sec ∈ parse_ini_with_comments docHdrEq, ∀ e ∈ sec.entries, e.line_number ≠ 1 :=
  claim9_headerPrecedence docHdrEq 1 (by decide) (by decide) (by decide) (by decide)

/- ### Claim C10 -/

/-- Claim C10 (confirmed): in model traversal order (each section's header
line followed by its entries' lines), the recorded source line numbers
of a parsed document are strictly increasing, and every one is a valid
index into the parsed lines. -/
theorem claim10_sourceLineMono (lines : List (List Char)) :
    (tline (parse_ini_with_comments lines)).Pairwise (· < ·) ∧
    ∀ x ∈ tline (parse_ini_with_comments lines), x < lines.length :=
  ⟨parse_tline_pairwise lines, parse_tline_lt lines⟩

/-- Witness for claim C10 on the concrete document docCanon. -/
theorem claim10_sourceLineMono_wit :
    (tline (parse_ini_with_comments docCanon)).Pairwise (· < ·) ∧
    ∀ x ∈ tline (parse_ini_with_comments docCanon), x < docCanon.length :=
  claim10_sourceLineMono docCanon

/- ### Claim C1 -/

/-- Counterexample for claim C1 as stated: with no edits, the writer
rewrites the entry line Foo = 1 in canonical layout Foo=1, so the output
is not byte-identical to the input. -/
theorem claim1_roundtrip_cex :
    save_ini docRoundTrip (parse_ini_with_comments docRoundTrip)
        (valsOf (parse_ini_with_comments docRoundTrip)) = .ok [lnSecA, lnFoo1] ∧
      save_ini docRoundTrip (parse_ini_with_comments docRoundTrip)
        (valsOf (parse_ini_with_comments docRoundTrip)) ≠ .ok docRoundTrip := by
  constructor
  · decide
  · decide

/-- Claim C1 (corrected): the writer rewrites every entry line from the
model, so the no-edit round trip is the identity exactly when every
entry line of the input is already in the writer's canonical layout
(same leading whitespace re-written as spaces, name=value with the fixed
inline-comment tab layout, trailing newline); non-entry lines are never
touched.  Under that hypothesis the output equals the input. -/
theorem claim1_roundtrip_amended (lines : List (List Char))
    (hcanon : ∀ sec ∈ parse_ini_with_comments lines, ∀ e ∈ sec.entries,
      lineAt lines e.line_number =
        rewriteLine (lineAt lines e.line_number) e
          (valsOf (parse_ini_with_comments lines) sec.name e.name)) :
    save_ini lines (parse_ini_with_comments lines)
      (valsOf (parse_ini_with_comments lines)) = .ok lines := by
  rw [save_ini_eq_foldPairs]
  apply foldl_saveStep_id
  intro p hp
  obtain ⟨sec, hs, hname, hpe⟩ := mem_of_allPairs hp
  have hr : p.2.line_number < lines.length := parse_entry_lt lines sec p.2 hs hpe
  have hcan := hcanon sec hs p.2 hpe
  rw [writeEntry, if_pos hr, ← hname, ← hcan, set_lineAt_self]

/-- Witness for claim C1: the canonical document docCanon round-trips
unchanged. -/
theorem claim1_roundtrip_wit :
    save_ini docCanon (parse_ini_with_comments docCanon)
      (valsOf (parse_ini_with_comments docCanon)) = .ok docCanon :=
  claim1_roundtrip_amended docCanon (by decide)

/- ### Claim C3 -/

/-- Counterexample for claim C3 as stated: a tab-indented entry line is
re-indented with a space character, not with the original tab, after its
value is edited. -/
theorem claim3_indent_cex :
    save_ini docTab (parse_ini_with_comments docTab) valsConst2 = .ok [lnSecA, lnSpFoo2] ∧
      (lineAt [lnSecA, lnSpFoo2] 1).takeWhile isPyWs ≠ (lineAt docTab 1).takeWhile isPyWs := by
  constructor
  · decide
  · decide

/-- Claim C3 (corrected): after an entry's value is rewritten, the new line
begins with exactly as many whitespace characters as the original line,
but they are always space characters (a count-preserving, not
character-preserving, re-indentation). -/
theorem claim3_indent_amended (lines ls : List (List Char)) (sec : ConfigSection)
    (e : ConfigEntry) (v : List Char) (hs : sec ∈ parse_ini_with_comments lines)
    (he : e ∈ sec.entries) (hr : e.line_number < ls.length) :
    ∃ out, writeEntry ls e v = .ok out ∧
      (lineAt out e.line_number).takeWhile isPyWs =
        List.replicate ((lineAt ls e.line_number).takeWhile isPyWs).length ' ' := by
  refine ⟨ls.set e.line_number (rewriteLine (lineAt ls e.line_number) e v), ?_, ?_⟩
  · rw [writeEntry, if_pos hr]
  · rw [lineAt_set_self ls e.line_number _ hr]
    have hwf := (parse_secWF lines sec hs).2.2.2.2 e he
    have hname : e.name = pyStrip (splitAtFirst '=' (stripAt lines e.line_number)).1 := by
      conv_lhs => rw [hwf.2.2.2.2]
      rw [mkEntry_name]
    unfold rewriteLine
    rw [List.append_assoc]
    exact takeWhile_replicate_space (entryText e v ++ ['\n'])
      (fun a ha => head_entryText_false e v _ hname ha)
      ((lineAt ls e.line_number).takeWhile isPyWs).length

/-- Witness for claim C3: rewriting the tab-indented entry of docTab
produces a line whose leading whitespace is one space. -/
theorem claim3_indent_wit :
    ∃ out, writeEntry docTab entTabFoo str2 = .ok out ∧
      (lineAt out entTabFoo.line_number).takeWhile isPyWs =
        List.replicate ((lineAt docTab entTabFoo.line_number).takeWhile isPyWs).length ' ' :=
  claim3_indent_amended docTab docTab secTab entTabFoo str2 (by decide) (by decide)
    (by decide)

/- ### Claim C8 -/

/-- Claim C8 (confirmed): when some addressed entry's recorded line number
is not a valid index into the raw lines, the writer fails with the
document-mismatch error (the uncaught IndexError of the source) and
produces no output document at all, so no unrelated line is modified. -/
theorem claim8_outOfRange (lines : List (List Char)) (sections : List ConfigSection)
    (vals : List Char → List Char → List Char) (sec : ConfigSection) (e : ConfigEntry)
    (hs : sec ∈ sections) (he : e ∈ sec.entries) (hr : lines.length ≤ e.line_number) :
    save_ini lines sections vals = .error .documentMismatch := by
  rw [save_ini_eq_foldPairs]
  have hp : (sec.name, e) ∈ allPairs sections := allPairs_mem hs he
  obtain ⟨l1, l2, hsplit⟩ := List.append_of_mem hp
  rw [hsplit, List.foldl_append, List.foldl_cons]
  cases hacc : List.foldl (saveStep vals) (.ok lines) l1 with
  | error err =>
    have hstep : saveStep vals (.error err) (sec.name, e) = .error err := rfl
    rw [hstep, foldl_saveStep_error]
  | ok ls =>
    have hlen := foldl_saveStep_ok_length vals l1 lines ls hacc
    have hstep : saveStep vals (.ok ls) (sec.name, e) = .error .documentMismatch := by
      show writeEntry ls e (vals sec.name e.name) = _
      rw [writeEntry, if_neg (by rw [hlen]; exact Nat.not_lt.mpr hr)]
    rw [hstep, foldl_saveStep_error]

/-- Witness for claim C8: a model entry recorded at line 9 of a one-line
document makes the writer fail with the document-mismatch error. -/
theorem claim8_outOfRange_wit :
    save_ini [lnSecA] [secFar] valsEmpty = .error .documentMismatch :=
  claim8_outOfRange [lnSecA] [secFar] valsEmpty secFar entFar (by decide) (by decide)
    (by decide)

/- ### Claim C2 -/

/-- Counterexample for claim C2 as stated: editing exactly (A, Bar) to 3
also canonicalises the untouched entry line Foo = 1 into Foo=1, so two
physical lines differ from the input, not one. -/
theorem claim2_locality_cex :
    save_ini docLocal (parse_ini_with_comments docLocal) valsEditBarCex =
        .ok [lnSecA, lnFoo1, lnBar3] ∧
      lineAt [lnSecA, lnFoo1, lnBar3] 1 ≠ lineAt docLocal 1 ∧
      lineAt [lnSecA, lnFoo1, lnBar3] 2 ≠ lineAt docLocal 2 := by
  refine ⟨by decide, by decide, by decide⟩

/-- Claim C2 (corrected): editing exactly one (section, key) pair changes
exactly that entry's physical line — provided every other parsed entry
line is already in the writer's canonical layout (otherwise those lines
are canonicalised too), the pair addresses exactly one entry, and the
rewritten line differs from the original. -/
theorem claim2_locality_amended (lines : List (List Char)) (S K v : List Char)
    (ent : ConfigEntry)
    (hfilter : (allPairs (parse_ini_with_comments lines)).filter
        (fun p => decide (p.1 = S ∧ p.2.name = K)) = [(S, ent)])
    (hothers : ∀ p ∈ allPairs (parse_ini_with_comments lines),
        ¬(p.1 = S ∧ p.2.name = K) →
        lineAt lines p.2.line_number =
          rewriteLine (lineAt lines p.2.line_number) p.2
            (valsOf (parse_ini_with_comments lines) p.1 p.2.name))
    (hchange : rewriteLine (lineAt lines ent.line_number) ent v ≠
        lineAt lines ent.line_number) :
    ∃ out, save_ini lines (parse_ini_with_comments lines)
        (fun s k => if s = S ∧ k = K then v
          else valsOf (parse_ini_with_comments lines) s k) = .ok out ∧
      out.length = lines.length ∧
      lineAt out ent.line_number ≠ lineAt lines ent.line_number ∧
      ∀ j, j ≠ ent.line_number → lineAt out j = lineAt lines j := by
  obtain ⟨A, B, hsplit, hA, hB, hpa⟩ :=
    filter_eq_singleton_split _ (allPairs (parse_ini_with_comments lines)) (S, ent) hfilter
  have hKname : ent.name = K := (of_decide_eq_true hpa).2
  have hmemA : ∀ q ∈ A, q ∈ allPairs (parse_ini_with_comments lines) := by
    intro q hq
    rw [hsplit]
    exact List.mem_append_left _ hq
  have hmemB : ∀ q ∈ B, q ∈ allPairs (parse_ini_with_comments lines) := by
    intro q hq
    rw [hsplit]
    exact List.mem_append_right _ (List.mem_cons_of_mem _ hq)
  have hmemEnt : (S, ent) ∈ allPairs (parse_ini_with_comments lines) := by
    rw [hsplit]
    exact List.mem_append_right _ (List.mem_cons_self _ _)
  have hrange : ∀ q ∈ allPairs (parse_ini_with_comments lines),
      q.2.line_number < lines.length := by
    intro q hq
    obtain ⟨sec, hsec, _, hqe⟩ := mem_of_allPairs hq
    exact parse_entry_lt lines sec q.2 hsec hqe
  have hnqA : ∀ q ∈ A, ¬(q.1 = S ∧ q.2.name = K) := by
    intro q hq hcon
    have hmf : q ∈ A.filter (fun p => decide (p.1 = S ∧ p.2.name = K)) :=
      List.mem_filter.mpr ⟨hq, decide_eq_true hcon⟩
    rw [hA] at hmf
    cases hmf
  have hnqB : ∀ q ∈ B, ¬(q.1 = S ∧ q.2.name = K) := by
    intro q hq hcon
    have hmf : q ∈ B.filter (fun p => decide (p.1 = S ∧ p.2.name = K)) :=
      List.mem_filter.mpr ⟨hq, decide_eq_true hcon⟩
    rw [hB] at hmf
    cases hmf
  have hpw := parse_entryLines_ne lines
  rw [hsplit, List.map_append, List.map_cons] at hpw
  have hpw2 := (List.pairwise_append.mp hpw).2.1
  have hneB : ∀ q ∈ B, q.2.line_number ≠ ent.line_number := by
    intro q hq
    have h := (List.pairwise_cons.mp hpw2).1 q.2.line_number
      (List.mem_map_of_mem _ hq)
    exact Ne.symm h
  have hr0 : ent.line_number < lines.length := hrange _ hmemEnt
  refine ⟨lines.set ent.line_number (rewriteLine (lineAt lines ent.line_number) ent v),
    ?_, ?_, ?_, ?_⟩
  · rw [save_ini_eq_foldPairs, hsplit, List.foldl_append, List.foldl_cons]
    have hfoldA : List.foldl (saveStep (fun s k => if s = S ∧ k = K then v
        else valsOf (parse_ini_with_comments lines) s k)) (.ok lines) A = .ok lines := by
      apply foldl_saveStep_id
      intro q hq
      have hv : (if q.1 = S ∧ q.2.name = K then v
          else valsOf (parse_ini_with_comments lines) q.1 q.2.name) =
          valsOf (parse_ini_with_comments lines) q.1 q.2.name :=
        if_neg (hnqA q hq)
      rw [writeEntry, if_pos (hrange q (hmemA q hq)), hv,
        ← hothers q (hmemA q hq) (hnqA q hq), set_lineAt_self]
    rw [hfoldA]
    have hstep : saveStep (fun s k => if s = S ∧ k = K then v
        else valsOf (parse_ini_with_comments lines) s k) (.ok lines) (S, ent) =
        .ok (lines.set ent.line_number
          (rewriteLine (lineAt lines ent.line_number) ent v)) := by
      show writeEntry lines ent ((fun s k => if s = S ∧ k = K then v
        else valsOf (parse_ini_with_comments lines) s k) S ent.name) = _
      have hv : (fun s k => if s = S ∧ k = K then v
          else valsOf (parse_ini_with_comments lines) s k) S ent.name = v := by
        show (if S = S ∧ ent.name = K then v
          else valsOf (parse_ini_with_comments lines) S ent.name) = v
        rw [if_pos ⟨rfl, hKname⟩]
      rw [hv, writeEntry, if_pos hr0]
    rw [hstep]
    apply foldl_saveStep_id
    intro q hq
    have hlen : (lines.set ent.line_number
        (rewriteLine (lineAt lines ent.line_number) ent v)).length = lines.length :=
      List.length_set lines _ _
    have hv : (if q.1 = S ∧ q.2.name = K then v
        else valsOf (parse_ini_with_comments lines) q.1 q.2.name) =
        valsOf (parse_ini_with_comments lines) q.1 q.2.name :=
      if_neg (hnqB q hq)
    have hline : lineAt (lines.set ent.line_number
        (rewriteLine (lineAt lines ent.line_number) ent v)) q.2.line_number =
        lineAt lines q.2.line_number :=
      lineAt_set_ne lines ent.line_number q.2.line_number _ (Ne.symm (hneB q hq))
    rw [writeEntry, if_pos (by rw [hlen]; exact hrange q (hmemB q hq)), hv, hline,
      ← hothers q (hmemB q hq) (hnqB q hq), ← hline, set_lineAt_self]
  · exact List.length_set lines _ _
  · rw [lineAt_set_self lines ent.line_number _ hr0]
    exact hchange
  · intro j hj
    exact lineAt_set_ne lines ent.line_number j _ (fun he => hj he.symm)

/-- Witness for claim C2: editing (A, Bar) to 3 in the canonical document
docLocalCanon changes exactly the Bar line. -/
theorem claim2_locality_wit :
    ∃ out, save_ini docLocalCanon (parse_ini_with_comments docLocalCanon)
        (fun s k => if s = strA ∧ k = strBar then str3
          else valsOf (parse_ini_with_comments docLocalCanon) s k) = .ok out ∧
      out.length = docLocalCanon.length ∧
      lineAt out entBar.line_number ≠ lineAt docLocalCanon entBar.line_number ∧
      ∀ j, j ≠ entBar.line_number → lineAt out j = lineAt docLocalCanon j :=
  claim2_locality_amended docLocalCanon strA strBar str3 entBar (by decide) (by decide)
    (by decide)
